import Mathlib

/-!
Verification of the fantasy-calendar engine of `scripts/fantasy_calendar.py`.

The Python source is shallowly embedded: Python `int` becomes `Int`,
Python strings become `List Char` (`Str`), Python tuples become products,
and code that can raise becomes `Option`/`Except`.  Every definition below
is a direct translation of the corresponding Python function; comments
point back to the source.  Python's `re` patterns are embedded as
dedicated matching functions over `List Char` (ASCII character classes);
each matcher documents the pattern it implements and reproduces the
leftmost/greedy backtracking behaviour of the pattern on the inputs in
scope.
-/

/-- Python strings are modelled as lists of characters. -/
abbrev Str := List Char

/-- `Date = tuple[int, int, int]` (year, month, day). -/
abbrev Date := Int × Int × Int

/-- `class Month(TypedDict): name: str; days: int`. -/
structure Month where
  name : Str
  days : Int
deriving DecidableEq, Repr

/-- `class Holiday(TypedDict): name: str; month: int; day: int`. -/
structure Holiday where
  name : Str
  month : Int
  day : Int
deriving DecidableEq, Repr

/-- Errors raised by the engine (`ValueError`, `IndexError`, the
`Exception`s of `str_to_timestamp`, and the unbound-variable failure when
no date pattern matches). -/
inductive CalError where
  | invalidDate
  | indexError
  | malformed
  | monthNotFound
  | holidayNotFound
  | unknownEra
deriving DecidableEq, Repr

/-- The `Calendar` object: the configuration stored by `Calendar.__init__`
plus the resolved `today` timestamp. -/
structure Calendar where
  months : List Month
  before : Str
  after : Str
  hasYearZero : Bool
  holidays : List Holiday
  dayZero : Int
  today : Int
deriving DecidableEq, Repr

/-- Sum of the day counts of a list of months. -/
def sumDays (ms : List Month) : Int :=
  (ms.map Month.days).sum

/-- `Calendar.num_days_of_year`: `sum(month["days"] for month in self._months)`. -/
def numDaysOfYear (c : Calendar) : Int :=
  sumDays c.months

/-- Sum of the day counts of the first `k` months (`self._months[: k]`). -/
def sumTake (ms : List Month) (k : Nat) : Int :=
  sumDays (ms.take k)

/-- Python list indexing `l[i]`: `0 ≤ i < len` reads directly, negative
indices in `[-len, 0)` wrap around, anything else raises `IndexError`
(modelled as `none`). -/
def pyGet (l : List Month) (i : Int) : Option Month :=
  if 0 ≤ i ∧ i < l.length then l.get? i.toNat
  else if -(l.length : Int) ≤ i ∧ i < 0 then l.get? (i + l.length).toNat
  else none

/-- The month/day loop of `Calendar.timestamp_to_date`:
`for m in self._months: if day > m["days"]: day -= m["days"]; month += 1 else: break`. -/
def monthDay : List Month → Int → Int → Int × Int
  | [], month, day => (month, day)
  | m :: rest, month, day =>
      if m.days < day then monthDay rest (month + 1) (day - m.days)
      else (month, day)

/-- `Calendar.timestamp_to_date`.  `divmod` on Python ints is floor
division with remainder, i.e. `Int.fdiv`/`Int.fmod`; `divmod` by zero
(an empty month list) raises in Python, so theorems about this function
assume a non-empty month list. -/
def timestamp_to_date (c : Calendar) (timestamp : Int) : Date :=
  let t := timestamp - c.dayZero
  let year := t.fdiv (numDaysOfYear c)
  let day := t.fmod (numDaysOfYear c) + 1
  let md := monthDay c.months 1 day
  (year + (if 0 ≤ year ∨ c.hasYearZero = true then 1 else 0), md.1, md.2)

/-- `Calendar.verify_date`.  The three `_ok` locals are evaluated
eagerly; `day_ok` short-circuits on `day > 0` and then indexes
`self._months[month - 1]`, which can raise `IndexError` (`none`). -/
def verify_date (c : Calendar) : Date → Option Bool
  | (year, month, day) =>
      (if day ≤ 0 then some false
       else (pyGet c.months (month - 1)).map (fun m => decide (day ≤ m.days))).map
        (fun dayOk => (c.hasYearZero || decide (year ≠ 0)) &&
          (decide (0 < month) && decide (month ≤ (c.months.length : Int))) && dayOk)

/-- `Calendar.date_to_timestamp`.  Raises `ValueError` when
`verify_date` is false and propagates the `IndexError` that
`verify_date` itself can raise. -/
def date_to_timestamp (c : Calendar) (date : Date) : Except CalError Int :=
  match verify_date c date with
  | none => Except.error CalError.indexError
  | some false => Except.error CalError.invalidDate
  | some true =>
      let year := date.1 - (if 0 ≤ date.1 ∨ c.hasYearZero = true then 1 else 0)
      Except.ok (year * numDaysOfYear c + date.2.2 - 1
        + sumTake c.months (date.2.1 - 1).toNat + c.dayZero)

/-- The three-month test configuration of `tests/test_calendar.py`
(`today` = "12th of third month 17" resolves to timestamp 1511). -/
def testMonths : List Month :=
  [⟨"first month".toList, 30⟩, ⟨"second month".toList, 30⟩,
   ⟨"third month".toList, 30⟩]

/-- Holidays of the test configuration. -/
def testHolidays : List Holiday :=
  [⟨"first special day".toList, 1, 3⟩, ⟨"second special day".toList, 3, 9⟩,
   ⟨"third special day".toList, 3, 30⟩]

/-- The calendar built by the `calendar` fixture of the test suite. -/
def testCal : Calendar :=
  ⟨testMonths, "before".toList, "after".toList, false, testHolidays, 0, 1511⟩

/-- The test calendar with `day_zero = 90` (last row family of
`test_day_zero`). -/
def testCal90 : Calendar :=
  ⟨testMonths, "before".toList, "after".toList, false, testHolidays, 90, 1511⟩

/-- ASCII model of the regex class `\d`. -/
def isDigitChar (c : Char) : Bool :=
  '0' ≤ c && c ≤ '9'

/-- ASCII model of the regex class `\w` (alphanumeric or underscore). -/
def isWordChar (c : Char) : Bool :=
  isDigitChar c || ('a' ≤ c && c ≤ 'z') || ('A' ≤ c && c ≤ 'Z') || c = '_'

/-- ASCII model of the regex class `\s`; `\S` is its negation. -/
def isWhitespaceChar (c : Char) : Bool :=
  c = ' ' || c = '\t' || c = '\n' || c = '\x0b' || c = '\x0c' || c = '\r'

/-- ASCII characters.  Python's `\d`/`\w`/`\s` are Unicode-aware; the
three classes above model them exactly on ASCII characters (where
`\d = [0-9]`, `\w = [A-Za-z0-9_]`, `\s = [ \t\n\x0b\x0c\r]`), so the
theorems about the parser restrict the strings and configured names in
scope to ASCII. -/
def isAsciiChar (c : Char) : Bool :=
  c.toNat < 128

/-- Python's `$` (without `re.MULTILINE`) matches at the end of the
string or just before a newline at the end of the string.  None of the
elements preceding `$` in the three date patterns (` *`, `(\w+)?`,
`(\d+)`, `.`) can consume a final `'\n'`, so matching a pattern
anchored with `$` against `s` is equivalent to matching it end-anchored
against `s` with one trailing newline removed. -/
def stripNl (s : Str) : Str :=
  if s.getLast? = some '\n' then s.dropLast else s

/-- Decimal digit character for a value below 10. -/
def digitChar (n : Nat) : Char :=
  if n = 0 then '0' else if n = 1 then '1' else if n = 2 then '2'
  else if n = 3 then '3' else if n = 4 then '4' else if n = 5 then '5'
  else if n = 6 then '6' else if n = 7 then '7' else if n = 8 then '8'
  else '9'

/-- Numeric value of a digit character. -/
def digitVal (c : Char) : Nat :=
  c.toNat - 48

/-- Fuel-driven decimal rendering; the fuel only makes the recursion
structural and is irrelevant as soon as it exceeds the value (see
`natStrGo_congr`). -/
def natStrGo : Nat → Nat → Str
  | 0, _ => []
  | fuel + 1, n =>
      if n < 10 then [digitChar n]
      else natStrGo fuel (n / 10) ++ [digitChar (n % 10)]

/-- Decimal rendering of a natural number, as Python's `str`/f-strings
produce it. -/
def natStr (n : Nat) : Str :=
  natStrGo (n + 1) n

/-- Python `int` on a string of decimal digits. -/
def digitsToNat (ds : Str) : Nat :=
  ds.foldl (fun a c => 10 * a + digitVal c) 0

/-- Tail matcher for ` *(\w+)?$`: optional spaces, then an optional
word which must reach the end of the string.  Deterministic: giving
characters back from the space run or a digit run before it can never
turn a failure into a success, because `\w` does not match a space and a
non-word character in the remainder stays in the remainder. -/
def wordTail (w : Str) : Option (Option Str) :=
  let w3 := w.dropWhile (fun c => c = ' ')
  if w3 = [] then some none
  else if w3.all isWordChar then some (some w3) else none

/-- Tail matcher for `(\d+) *(\w+)?$`: a non-empty greedy digit run,
then `wordTail`. -/
def specTail (w : Str) : Option (Str × Option Str) :=
  let y := w.takeWhile isDigitChar
  if y = [] then none
  else (wordTail (w.dropWhile isDigitChar)).map (fun e => (y, e))

/-- Tail matcher for ` +(\d+) *(\w+)?$`: at least one space, then
`specTail`.  Deterministic: the digit run must start at the first
non-space character. -/
def tail3 (v : Str) : Option (Str × Option Str) :=
  if v.takeWhile (fun c => c = ' ') = [] then none
  else specTail (v.dropWhile (fun c => c = ' '))

/-- `PATTERN_SLASH_DATE = ^(\d+)\/(\d+)\/(\d+) *(\w+)?$`.  Returns the
day, month and year digit groups and the optional era word.  Each digit
run is greedy and is followed by a non-digit literal, so the match is
deterministic. -/
def matchSlashCore (s : Str) : Option (Str × Str × Str × Option Str) :=
  let d1 := s.takeWhile isDigitChar
  if d1 = [] then none
  else match s.dropWhile isDigitChar with
  | c :: r2 =>
      if c = '/' then
        let d2 := r2.takeWhile isDigitChar
        if d2 = [] then none
        else match r2.dropWhile isDigitChar with
        | c2 :: r4 =>
            if c2 = '/' then
              let d3 := r4.takeWhile isDigitChar
              if d3 = [] then none
              else (wordTail (r4.dropWhile isDigitChar)).map (fun e => (d1, d2, d3, e))
            else none
        | [] => none
      else none
  | [] => none

/-- `PATTERN_SLASH_DATE` with the `$` end rule: one trailing newline is
stripped before end-anchored matching (`stripNl`). -/
def matchSlash (s : Str) : Option (Str × Str × Str × Option Str) :=
  matchSlashCore (stripNl s)

/-- One attempt of the `(\D+\S)` group of `PATTERN_WORDED_DATE` at a
fixed `\D+` length `kd + 1`, with backtracking to shorter lengths.  The
entry point `groupRest` starts at the longest all-non-digit prefix, so
every tried prefix is a valid `\D+`; the `\S` character after it may be
any non-whitespace character (including a digit), and the rest must
match ` +(\d+) *(\w+)?$`. -/
def tryK (u : Str) : Nat → Option (Str × Str × Option Str)
  | 0 => none
  | kd + 1 =>
      match u.drop (kd + 1) with
      | [] => tryK u kd
      | c :: rest =>
          if isWhitespaceChar c then tryK u kd
          else match tail3 rest with
            | some (y, e) => some (u.take (kd + 2), y, e)
            | none => tryK u kd

/-- Matcher for `(\D+\S) +(\d+) *(\w+)?$`: greedy `\D+` with
backtracking, starting from the maximal non-digit prefix. -/
def groupRest (u : Str) : Option (Str × Str × Option Str) :=
  tryK u (u.takeWhile (fun c => !isDigitChar c)).length

/-- Backtracking over the length of the ` +` run before the `(\D+\S)`
group: the greedy run of `j + 1` spaces is tried first, then shorter
runs (the group itself may start with a space). -/
def tryJ (r : Str) : Nat → Option (Str × Str × Option Str)
  | 0 => none
  | j + 1 =>
      match groupRest (r.drop (j + 1)) with
      | some x => some x
      | none => tryJ r j

/-- Stage of `PATTERN_WORDED_DATE` after the literal `of`: the greedy
run of spaces before the `(\D+\S)` group, tried longest-first via
`tryJ`. -/
def afterOf (r : Str) : Option (Str × Str × Option Str) :=
  tryJ r (r.takeWhile (fun c => c = ' ')).length

/-- Stage of `PATTERN_WORDED_DATE` after the ordinal suffix: ` +of `
(the greedy space run is deterministic because the literal `o` cannot
match a space), then `afterOf`. -/
def afterSuffix (r2 : Str) : Option (Str × Str × Option Str) :=
  if r2.takeWhile (fun c => c = ' ') = [] then none
  else match r2.dropWhile (fun c => c = ' ') with
  | a :: b :: r4 => if a = 'o' ∧ b = 'f' then afterOf r4 else none
  | _ => none

/-- `PATTERN_WORDED_DATE = ^(\d+)(st|nd|rd|th) +of +(\D+\S) +(\d+) *(\w+)?$`.
Returns the day digits, the captured month-name group, the year digits
and the optional era word.  The day digits and ordinal suffix are
deterministic (the suffix letters cannot extend the greedy digit run);
the rest is handled by `afterSuffix`/`afterOf`/`tryK`. -/
def matchWordedCore (s : Str) : Option (Str × Str × Str × Option Str) :=
  let d1 := s.takeWhile isDigitChar
  if d1 = [] then none
  else match s.dropWhile isDigitChar with
  | c1 :: c2 :: r2 =>
      if ([c1, c2] = ['s', 't'] || [c1, c2] = ['n', 'd'] ||
          [c1, c2] = ['r', 'd'] || [c1, c2] = ['t', 'h']) then
        (afterSuffix r2).map (fun g => (d1, g))
      else none
  | _ => none

/-- `PATTERN_WORDED_DATE` with the `$` end rule: one trailing newline is
stripped before end-anchored matching (`stripNl`). -/
def matchWorded (s : Str) : Option (Str × Str × Str × Option Str) :=
  matchWordedCore (stripNl s)

/-- `PATTERN_SPECIAL_DATE = ^(.*) (\d+) *(\w+)?$`, processed so that the
rightmost split wins: splits inside the tail are tried before the split
at the current character, which models the greedy `(.*)`.  The `.` class
does not match a newline, so a prefix containing `'\n'` rejects the
match. -/
def matchSpecialAux : Str → Option (Str × Str × Option Str)
  | [] => none
  | c :: rest =>
      match matchSpecialAux rest with
      | some (pre, y, e) => if c = '\n' then none else some (c :: pre, y, e)
      | none =>
          if c = ' ' then (specTail rest).map (fun p => ([], p.1, p.2))
          else none

/-- Entry point for `PATTERN_SPECIAL_DATE`: captured holiday-name group,
year digits and optional era word, with the `$` end rule (one trailing
newline stripped before end-anchored matching). -/
def matchSpecial (s : Str) : Option (Str × Str × Option Str) :=
  matchSpecialAux (stripNl s)

/-- `Calendar._search_month`: 1-based first month whose name equals the
argument (the `enumerate(self._months, 1)` loop). -/
def searchMonthAux : Int → List Month → Str → Option (Int × Month)
  | _, [], _ => none
  | num, m :: rest, name =>
      if m.name = name then some (num, m) else searchMonthAux (num + 1) rest name

/-- `Calendar._search_holiday`: first holiday with the given name. -/
def searchHoliday : List Holiday → Str → Option Holiday
  | [], _ => none
  | h :: rest, name => if h.name = name then some h else searchHoliday rest name

/-- `Calendar._try_get_holiday`: name of the first holiday at the given
month and day. -/
def tryGetHoliday : List Holiday → Int → Int → Option Str
  | [], _, _ => none
  | h :: rest, month, day =>
      if h.month = month ∧ h.day = day then some h.name
      else tryGetHoliday rest month day

/-- `nth_from_day`: raises for a negative day, otherwise appends the
English ordinal suffix to the decimal rendering. -/
def nthFromDay (day : Int) : Option Str :=
  if day < 0 then none
  else
    some (natStr day.toNat ++
      (if day.toNat / 10 % 10 = 1 then ['t', 'h']
       else if day.toNat % 10 = 1 then ['s', 't']
       else if day.toNat % 10 = 2 then ['n', 'd']
       else if day.toNat % 10 = 3 then ['r', 'd']
       else ['t', 'h']))

/-- The era-token step of `str_to_timestamp`: an absent group is kept
as-is, a token equal to the `before` string negates the year, a token
equal to the `after` string is accepted, anything else raises. -/
def resolveEra (c : Calendar) (year : Int) (era : Option Str) : Except CalError Int :=
  match era with
  | none => Except.ok year
  | some tok =>
      if tok = c.before then Except.ok (-year)
      else if tok = c.after then Except.ok year
      else Except.error CalError.unknownEra

/-- The pattern-dispatch part of `Calendar.str_to_timestamp`: the three
patterns are tried in order, the month/holiday lookups of the worded and
special branches run before the era step, and a string matching no
pattern leaves the variables unbound (a malformed-input failure). -/
def strToDate (c : Calendar) (s : Str) : Except CalError Date :=
  match matchSlash s with
  | some (dstr, mstr, ystr, era) =>
      (resolveEra c (digitsToNat ystr) era).map
        (fun y => (y, (digitsToNat mstr : Int), (digitsToNat dstr : Int)))
  | none =>
    match matchWorded s with
    | some (dstr, mname, ystr, era) =>
        match searchMonthAux 1 c.months mname with
        | none => Except.error CalError.monthNotFound
        | some (num, _) =>
            (resolveEra c (digitsToNat ystr) era).map
              (fun y => (y, num, (digitsToNat dstr : Int)))
    | none =>
      match matchSpecial s with
      | some (hname, ystr, era) =>
          match searchHoliday c.holidays hname with
          | none => Except.error CalError.holidayNotFound
          | some h =>
              (resolveEra c (digitsToNat ystr) era).map
                (fun y => (y, h.month, h.day))
      | none => Except.error CalError.malformed

/-- `Calendar.str_to_timestamp`: resolve the string to a date, then
delegate to `date_to_timestamp`. -/
def str_to_timestamp (c : Calendar) (s : Str) : Except CalError Int :=
  (strToDate c s).bind (fun d => date_to_timestamp c d)

/-- The ordinal/month branch of `Calendar.timestamp_to_str`:
`f"{nth} of {month} {abs(year)} {era}"`; `nth_from_day` and the month
indexing can raise, hence `Option`. -/
def ordinalRender (c : Calendar) (month day : Int) (yearStr era : Str) : Option Str :=
  match nthFromDay day, pyGet c.months (month - 1) with
  | some dayStr, some m =>
      some (dayStr ++ ' ' :: 'o' :: 'f' :: ' ' ::
        (m.name ++ ' ' :: (yearStr ++ ' ' :: era)))
  | _, _ => none

/-- `Calendar.timestamp_to_str`: `f"{holiday} {abs(year)} {era}"` when
the walrus test `if holiday_str := self._try_get_holiday(...)` is
truthy — i.e. a holiday matched AND its name is non-empty (an empty
string is falsy in Python) — otherwise the ordinal branch. -/
def timestamp_to_str (c : Calendar) (timestamp : Int) : Option Str :=
  let d := timestamp_to_date c timestamp
  let yearStr := natStr d.1.natAbs
  let era := if d.1 < 0 then c.before else c.after
  match tryGetHoliday c.holidays d.2.1 d.2.2 with
  | some name =>
      if name = [] then ordinalRender c d.2.1 d.2.2 yearStr era
      else some (name ++ ' ' :: (yearStr ++ ' ' :: era))
  | none => ordinalRender c d.2.1 d.2.2 yearStr era

/-- `Calendar.__init__`: the configuration is stored unconditionally; a
string `today` is resolved through `str_to_timestamp` (which reads only
the configuration fields, so the placeholder `today := 0` used during
resolution is never observed). -/
def mkCalendar (months : List Month) (today : Int ⊕ Str) (before after : Str)
    (hasYearZero : Bool) (holidays : List Holiday) (dayZero : Int) :
    Except CalError Calendar :=
  match today with
  | Sum.inl ts =>
      Except.ok ⟨months, before, after, hasYearZero, holidays, dayZero, ts⟩
  | Sum.inr s =>
      (str_to_timestamp ⟨months, before, after, hasYearZero, holidays, dayZero, 0⟩ s).map
        (fun ts => ⟨months, before, after, hasYearZero, holidays, dayZero, ts⟩)

/-- Python attribute access `date.year` on a `Date` value.  `Date` is the
plain tuple type `tuple[int, int, int]`, and tuples have no `year`
attribute, so the access raises `AttributeError` on every value. -/
def dateAttrYear (_ : Date) : Option Int :=
  none

/-- Python attribute access `date.month` on a `Date` tuple; always
raises `AttributeError`. -/
def dateAttrMonth (_ : Date) : Option Int :=
  none

/-- Python attribute access `date.day` on a `Date` tuple; always raises
`AttributeError`. -/
def dateAttrDay (_ : Date) : Option Int :=
  none

/-- `Calendar._day_of_year`:
`date.day + sum(month["days"] for month in self._months[: date.month - 1])`. -/
def underDayOfYear (c : Calendar) (date : Date) : Option Int :=
  (dateAttrDay date).bind fun dy =>
    (dateAttrMonth date).map fun mo => dy + sumTake c.months (mo - 1).toNat

/-- `Calendar.day_of_year`: the `verify_date` guard (whose failure path
raises: `DateError` is not even defined in the module), then
`_day_of_year`. -/
def day_of_year (c : Calendar) (date : Date) : Option Int :=
  match verify_date c date with
  | some true => underDayOfYear c date
  | _ => none

/-- `Calendar._remainder_of_month`:
`self._months[date.month - 1]["days"] - date.day`. -/
def underRemainderOfMonth (c : Calendar) (date : Date) : Option Int :=
  (dateAttrMonth date).bind fun mo =>
    (pyGet c.months (mo - 1)).bind fun m =>
      (dateAttrDay date).map fun dy => m.days - dy

/-- `Calendar.remainder_of_month` with its `verify_date` guard. -/
def remainder_of_month (c : Calendar) (date : Date) : Option Int :=
  match verify_date c date with
  | some true => underRemainderOfMonth c date
  | _ => none

/-- `Calendar._remainder_of_year`: `_remainder_of_month(date) +
sum(month["days"] for month in self._months[date.month :])`. -/
def underRemainderOfYear (c : Calendar) (date : Date) : Option Int :=
  (underRemainderOfMonth c date).bind fun r =>
    (dateAttrMonth date).map fun mo => r + sumDays (c.months.drop mo.toNat)

/-- `Calendar.remainder_of_year` with its `verify_date` guard. -/
def remainder_of_year (c : Calendar) (date : Date) : Option Int :=
  match verify_date c date with
  | some true => underRemainderOfYear c date
  | _ => none

/-- Python tuple comparison `<` on 3-tuples of ints (lexicographic),
used by `_days_between_dates`; comparison itself does not raise. -/
def dateLtb (d1 d2 : Date) : Bool :=
  decide (d1.1 < d2.1) ||
    (decide (d1.1 = d2.1) &&
      (decide (d1.2.1 < d2.2.1) ||
        (decide (d1.2.1 = d2.2.1) && decide (d1.2.2 < d2.2.2))))

/-- `Calendar._days_between_dates`.  Equal dates short-circuit to `0`
before any attribute access; any other pair reaches `date2.year` /
`date1.year`, which raise `AttributeError` on tuples. -/
def underDaysBetweenDates (c : Calendar) (date1 date2 : Date) : Option Int :=
  if date1 = date2 then some 0
  else
    let reverse := dateLtb date2 date1
    let p := if dateLtb date2 date1 then (date2, date1) else (date1, date2)
    (dateAttrYear p.2).bind fun y2 =>
    (dateAttrYear p.1).bind fun y1 =>
    let diffYears := y2 - y1
    if 0 < diffYears then
      (underRemainderOfYear c p.1).bind fun a =>
      (underDayOfYear c p.2).map fun b =>
        let days := a + b + (diffYears - 1) * numDaysOfYear c
        if reverse then -days else days
    else
      (dateAttrMonth p.2).bind fun m2 =>
      (dateAttrMonth p.1).bind fun m1 =>
      if m1 < m2 then
        (underRemainderOfMonth c p.1).bind fun r =>
        (dateAttrDay p.2).map fun d2 =>
          let days := r + d2 + sumDays ((c.months.drop m1.toNat).take (m2 - m1).toNat)
          if reverse then -days else days
      else
        (dateAttrDay p.2).bind fun dd2 =>
        (dateAttrDay p.1).map fun dd1 =>
          if reverse then -(dd2 - dd1) else dd2 - dd1

/-- `Calendar.days_between_dates` with its two `verify_date` guards. -/
def days_between_dates (c : Calendar) (date1 date2 : Date) : Option Int :=
  match verify_date c date1, verify_date c date2 with
  | some true, some true => underDaysBetweenDates c date1 date2
  | _, _ => none

/-- Valid configuration in the sense of the spec: a non-empty month list
with positive day counts. -/
def validConfig (c : Calendar) : Prop :=
  c.months ≠ [] ∧ ∀ m ∈ c.months, 0 < m.days

/-- Lexicographic non-strict order on dates. -/
def dateLexLe (d1 d2 : Date) : Prop :=
  d1.1 < d2.1 ∨ (d1.1 = d2.1 ∧
    (d1.2.1 < d2.2.1 ∨ (d1.2.1 = d2.2.1 ∧ d1.2.2 ≤ d2.2.2)))

/-- Lexicographic strict order on dates. -/
def dateLexLt (d1 d2 : Date) : Prop :=
  d1.1 < d2.1 ∨ (d1.1 = d2.1 ∧
    (d1.2.1 < d2.2.1 ∨ (d1.2.1 = d2.2.1 ∧ d1.2.2 < d2.2.2)))

/-- Era tokens that cannot collide with the date grammars: non-empty
words (so the `(\w+)?` group captures them whole) containing no digit
and no whitespace. -/
def goodEra (tok : Str) : Bool :=
  !tok.isEmpty &&
    tok.all (fun ch => isWordChar ch && !isDigitChar ch && !isWhitespaceChar ch)

/-- Month names that cannot collide with the date grammars: ASCII only
(so the embedded character classes agree with Python's Unicode-aware
`\d`/`\s`), at least two characters (the `(\D+\S)` group needs two),
no digits, no leading space, no trailing whitespace. -/
def goodMonthName (n : Str) : Bool :=
  decide (2 ≤ n.length) && n.all (fun ch => isAsciiChar ch && !isDigitChar ch) &&
    (match n.head? with | some ch => decide (ch ≠ ' ') | none => false) &&
    (match n.getLast? with | some ch => !isWhitespaceChar ch | none => false)

/-- Holiday names that cannot collide with the date grammars: non-empty
(Python's walrus truthiness test skips an empty name), ASCII only (so
the embedded character classes agree with Python's Unicode-aware ones),
no digits and no newline. -/
def goodHolidayName (n : Str) : Bool :=
  !n.isEmpty && n.all (fun ch => isAsciiChar ch && !isDigitChar ch && decide (ch ≠ '\n'))

/-- Configurations whose rendered dates are unambiguous: well-shaped,
pairwise-distinct month and holiday names and two distinct well-shaped
era tokens. -/
def unambiguousConfig (c : Calendar) : Prop :=
  (∀ m ∈ c.months, goodMonthName m.name = true) ∧
    (c.months.map Month.name).Nodup ∧
    (∀ h ∈ c.holidays, goodHolidayName h.name = true) ∧
    (c.holidays.map Holiday.name).Nodup ∧
    goodEra c.before = true ∧ goodEra c.after = true ∧ c.before ≠ c.after

/-- Modelled from the spec, claim C4: the year adjustment as the spec
states it, adding 1 when the zero-based index is non-negative or
year-zero is disabled. -/
def claimedYearAdjust (y0 : Int) (hasYearZero : Bool) : Int :=
  if 0 ≤ y0 ∨ hasYearZero = false then y0 + 1 else y0

example : timestamp_to_date testCal 0 = (1, 1, 1) := by decide
example : timestamp_to_date testCal 181291 = (2015, 2, 2) := by decide
example : timestamp_to_date testCal (-38) = (-1, 2, 23) := by decide
example : timestamp_to_date testCal 812 = (10, 1, 3) := by decide
example : timestamp_to_date testCal90 0 = (-1, 1, 1) := by decide
example : date_to_timestamp testCal (2015, 2, 2) = Except.ok 181291 := rfl
example : date_to_timestamp testCal (-2, 2, 12) = Except.ok (-139) := rfl
example : verify_date testCal (1, 5, 1) = none := by decide
example : verify_date testCal (1, 0, 5) = some false := by decide
example : str_to_timestamp testCal "1st of first month 1 after".toList = Except.ok 0 := rfl
example : str_to_timestamp testCal "first special day 10 after".toList = Except.ok 812 := rfl
example : str_to_timestamp testCal "23rd of second month 1 before".toList = Except.ok (-38) := rfl
example : str_to_timestamp testCal "2/2/2015".toList = Except.ok 181291 := rfl
example : timestamp_to_str testCal 0 = some "1st of first month 1 after".toList := rfl
example : timestamp_to_str testCal 181291 = some "2nd of second month 2015 after".toList := rfl
example : timestamp_to_str testCal 8999 = some "third special day 100 after".toList := rfl
example : timestamp_to_str testCal (-139) = some "12th of second month 2 before".toList := rfl
example : str_to_timestamp testCal "nonsense".toList = Except.error CalError.malformed := rfl

theorem sumDays_nil : sumDays [] = 0 := rfl

theorem sumDays_cons (m : Month) (rest : List Month) :
    sumDays (m :: rest) = m.days + sumDays rest := by
  simp [sumDays]

theorem sumDays_nonneg (ms : List Month) (h : ∀ m ∈ ms, 0 < m.days) :
    0 ≤ sumDays ms := by
  induction ms with
  | nil => simp [sumDays]
  | cons m rest ih =>
      rw [sumDays_cons]
      have h1 := h m (List.mem_cons_self m rest)
      have h2 := ih (fun x hx => h x (List.mem_cons_of_mem _ hx))
      omega

theorem sumDays_pos (ms : List Month) (hne : ms ≠ [])
    (h : ∀ m ∈ ms, 0 < m.days) : 0 < sumDays ms := by
  cases ms with
  | nil => exact absurd rfl hne
  | cons m rest =>
      rw [sumDays_cons]
      have h1 := h m (List.mem_cons_self m rest)
      have h2 := sumDays_nonneg rest (fun x hx => h x (List.mem_cons_of_mem _ hx))
      omega

theorem sumTake_zero (ms : List Month) : sumTake ms 0 = 0 := rfl

theorem sumTake_cons_succ (m : Month) (rest : List Month) (k : Nat) :
    sumTake (m :: rest) (k + 1) = m.days + sumTake rest k := by
  simp [sumTake, sumDays]

theorem sumTake_nonneg (ms : List Month) (h : ∀ m ∈ ms, 0 < m.days) (k : Nat) :
    0 ≤ sumTake ms k :=
  sumDays_nonneg _ (fun x hx => h x (List.mem_of_mem_take hx))

theorem sumTake_succ_get (ms : List Month) (k : Nat) (hk : k < ms.length) :
    sumTake ms (k + 1) = sumTake ms k + (ms.get ⟨k, hk⟩).days := by
  induction ms generalizing k with
  | nil => simp at hk
  | cons m rest ih =>
      cases k with
      | zero => simp [sumTake_cons_succ, sumTake_zero]
      | succ k' =>
          have hk' : k' < rest.length := by simpa using hk
          rw [sumTake_cons_succ, sumTake_cons_succ, ih k' hk']
          simp [List.get]
          omega

theorem sumTake_of_length_le (ms : List Month) (k : Nat) (hk : ms.length ≤ k) :
    sumTake ms k = sumDays ms := by
  unfold sumTake
  rw [List.take_of_length_le hk]

theorem sumTake_le_sumDays (ms : List Month) (h : ∀ m ∈ ms, 0 < m.days) (k : Nat) :
    sumTake ms k ≤ sumDays ms := by
  induction ms generalizing k with
  | nil => simp [sumTake, sumDays]
  | cons m rest ih =>
      cases k with
      | zero =>
          rw [sumTake_zero]
          exact sumDays_nonneg _ h
      | succ k' =>
          rw [sumTake_cons_succ, sumDays_cons]
          have := ih (fun x hx => h x (List.mem_cons_of_mem _ hx)) k'
          omega

theorem monthDay_spec (ms : List Month) (hpos : ∀ m ∈ ms, 0 < m.days) :
    ∀ day month : Int, 1 ≤ day → day ≤ sumDays ms →
    ∃ k : Nat, k < ms.length ∧
      monthDay ms month day = (month + (k : Int), day - sumTake ms k) ∧
      sumTake ms k < day ∧ day ≤ sumTake ms (k + 1) := by
  induction ms with
  | nil =>
      intro day month h1 h2
      rw [sumDays_nil] at h2
      omega
  | cons m rest ih =>
      intro day month h1 h2
      by_cases hgt : m.days < day
      · have hpos' : ∀ x ∈ rest, 0 < x.days :=
          fun x hx => hpos x (List.mem_cons_of_mem _ hx)
        have h2' : day - m.days ≤ sumDays rest := by
          rw [sumDays_cons] at h2; omega
        obtain ⟨k, hk, heq, hlt, hle⟩ := ih hpos' (day - m.days) (month + 1) (by omega) h2'
        refine ⟨k + 1, by simpa using hk, ?_, ?_, ?_⟩
        · show monthDay (m :: rest) month day = _
          rw [monthDay, if_pos hgt, heq, sumTake_cons_succ, Prod.mk.inj_iff]
          refine ⟨by push_cast; omega, by omega⟩
        · rw [sumTake_cons_succ]; omega
        · rw [sumTake_cons_succ]; omega
      · refine ⟨0, by simp, ?_, ?_, ?_⟩
        · rw [monthDay, if_neg hgt, sumTake_zero]
          simp
        · rw [sumTake_zero]; omega
        · rw [sumTake_cons_succ, sumTake_zero]; omega

theorem monthDay_build (ms : List Month) (hpos : ∀ m ∈ ms, 0 < m.days) :
    ∀ (k : Nat) (hk : k < ms.length) (day month : Int), 1 ≤ day →
    day ≤ (ms.get ⟨k, hk⟩).days →
    monthDay ms month (sumTake ms k + day) = (month + (k : Int), day) := by
  induction ms with
  | nil => intro k hk; simp at hk
  | cons m rest ih =>
      intro k hk day month h1 h2
      cases k with
      | zero =>
          rw [sumTake_zero]
          rw [monthDay, if_neg (by simpa [List.get] using h2 : ¬ m.days < 0 + day)]
          simp
      | succ k' =>
          have hk' : k' < rest.length := by simpa using hk
          have hrest : ∀ x ∈ rest, 0 < x.days :=
            fun x hx => hpos x (List.mem_cons_of_mem _ hx)
          have hs : 0 ≤ sumTake rest k' := sumTake_nonneg rest hrest k'
          rw [sumTake_cons_succ]
          rw [monthDay, if_pos (by omega : m.days < m.days + sumTake rest k' + day)]
          have harg : m.days + sumTake rest k' + day - m.days = sumTake rest k' + day := by omega
          rw [harg, ih hrest k' hk' day (month + 1) h1 (by simpa [List.get] using h2),
            Prod.mk.inj_iff]
          refine ⟨by push_cast; omega, rfl⟩

theorem verify_date_true_iff (c : Calendar) (y m d : Int) :
    verify_date c (y, m, d) = some true ↔
      (c.hasYearZero = true ∨ y ≠ 0) ∧ 1 ≤ m ∧ m ≤ c.months.length ∧ 1 ≤ d ∧
      ∃ mo, c.months.get? (m - 1).toNat = some mo ∧ d ≤ mo.days := by
  rw [verify_date]
  unfold pyGet
  by_cases hd : d ≤ 0
  · rw [if_pos hd]
    simp only [Option.map_some']
    constructor
    · intro h
      have h' := Option.some.inj h
      simp at h'
    · rintro ⟨_, _, _, h4, _⟩
      omega
  · rw [if_neg hd]
    by_cases hin : 0 ≤ m - 1 ∧ m - 1 < (c.months.length : Int)
    · rw [if_pos hin]
      rcases hget : c.months.get? (m - 1).toNat with _ | mo
      · exfalso
        rw [List.get?_eq_none] at hget
        omega
      · simp only [Option.map_some']
        constructor
        · intro h
          have h' := Option.some.inj h
          simp only [Bool.and_eq_true, Bool.or_eq_true, decide_eq_true_eq] at h'
          obtain ⟨⟨h1, ⟨h2, h3⟩⟩, h4⟩ := h'
          refine ⟨?_, by omega, by omega, by omega, mo, rfl, h4⟩
          rcases h1 with h | h
          · exact Or.inl h
          · exact Or.inr h
        · rintro ⟨h1, h2, h3, h4, mo', hmo', h5⟩
          obtain rfl : mo = mo' := Option.some.inj hmo'
          congr 1
          simp only [Bool.and_eq_true, Bool.or_eq_true, decide_eq_true_eq]
          refine ⟨⟨?_, by omega, by omega⟩, h5⟩
          rcases h1 with h | h
          · exact Or.inl h
          · exact Or.inr h
    · rw [if_neg hin]
      by_cases hneg : -(c.months.length : Int) ≤ m - 1 ∧ m - 1 < 0
      · rw [if_pos hneg]
        rcases hget : c.months.get? (m - 1 + c.months.length).toNat with _ | mo
        · exfalso
          rw [List.get?_eq_none] at hget
          omega
        · simp only [Option.map_some']
          constructor
          · intro h
            have h' := Option.some.inj h
            simp only [Bool.and_eq_true, Bool.or_eq_true, decide_eq_true_eq] at h'
            omega
          · rintro ⟨_, h2, _, _, _⟩
            omega
      · rw [if_neg hneg]
        simp only [Option.map_none']
        constructor
        · intro h
          exact absurd h (by simp)
        · rintro ⟨_, h2, h3, _, _⟩
          omega

theorem yearAdjust_there (y0 : Int) (hyz : Bool) :
    (y0 + (if 0 ≤ y0 ∨ hyz = true then 1 else 0)) -
      (if 0 ≤ y0 + (if 0 ≤ y0 ∨ hyz = true then 1 else 0) ∨ hyz = true then 1 else 0) = y0 := by
  rcases hyz with _ | _ <;> split_ifs <;> simp_all <;> omega

theorem yearAdjust_back (y : Int) (hyz : Bool) (hvalid : hyz = true ∨ y ≠ 0) :
    (y - (if 0 ≤ y ∨ hyz = true then 1 else 0)) +
      (if 0 ≤ y - (if 0 ≤ y ∨ hyz = true then 1 else 0) ∨ hyz = true then 1 else 0) = y := by
  rcases hyz with _ | _ <;> split_ifs <;> simp_all <;> omega

theorem fdiv_decomp (D y0 P : Int) (hD : 0 < D) (h0 : 0 ≤ P) (hP : P < D) :
    (y0 * D + P).fdiv D = y0 := by
  rw [Int.fdiv_eq_ediv _ (le_of_lt hD), add_comm,
    Int.add_mul_ediv_right _ _ (by omega : D ≠ 0),
    Int.ediv_eq_zero_of_lt h0 hP]
  omega

theorem fmod_decomp (D y0 P : Int) (hD : 0 < D) (h0 : 0 ≤ P) (hP : P < D) :
    (y0 * D + P).fmod D = P := by
  rw [Int.fmod_eq_emod _ (le_of_lt hD), add_comm, Int.add_mul_emod_self]
  exact Int.emod_eq_of_lt h0 hP

theorem timestamp_to_date_eq (c : Calendar) (hne : c.months ≠ [])
    (hpos : ∀ m ∈ c.months, 0 < m.days) (t : Int) :
    ∃ k : Nat, k < c.months.length ∧
      timestamp_to_date c t =
        ((t - c.dayZero).fdiv (numDaysOfYear c) +
          (if 0 ≤ (t - c.dayZero).fdiv (numDaysOfYear c) ∨ c.hasYearZero = true
           then 1 else 0),
         1 + (k : Int),
         (t - c.dayZero).fmod (numDaysOfYear c) + 1 - sumTake c.months k) ∧
      sumTake c.months k < (t - c.dayZero).fmod (numDaysOfYear c) + 1 ∧
      (t - c.dayZero).fmod (numDaysOfYear c) + 1 ≤ sumTake c.months (k + 1) := by
  have hD : 0 < numDaysOfYear c := sumDays_pos _ hne hpos
  have hm0 : 0 ≤ (t - c.dayZero).fmod (numDaysOfYear c) := by
    rw [Int.fmod_eq_emod _ (le_of_lt hD)]
    exact Int.emod_nonneg _ (by omega)
  have hmD : (t - c.dayZero).fmod (numDaysOfYear c) < numDaysOfYear c := by
    rw [Int.fmod_eq_emod _ (le_of_lt hD)]
    exact Int.emod_lt_of_pos _ hD
  obtain ⟨k, hk, heq, hlt, hle⟩ :=
    monthDay_spec c.months hpos ((t - c.dayZero).fmod (numDaysOfYear c) + 1) 1
      (by omega) (by have hEq : numDaysOfYear c = sumDays c.months := rfl; omega)
  refine ⟨k, hk, ?_, hlt, hle⟩
  simp only [timestamp_to_date]
  rw [heq]

theorem timestamp_to_date_valid (c : Calendar) (hv : validConfig c) (t : Int) :
    verify_date c (timestamp_to_date c t) = some true := by
  obtain ⟨hne, hpos⟩ := hv
  obtain ⟨k, hk, heq, hlt, hle⟩ := timestamp_to_date_eq c hne hpos t
  rw [heq, verify_date_true_iff]
  have hkk : ((1 : Int) + (k : Int) - 1).toNat = k := by omega
  have hgetk := List.get?_eq_get hk
  have hsum := sumTake_succ_get c.months k hk
  refine ⟨?_, by omega, by omega, by omega, ?_⟩
  · by_cases hz : c.hasYearZero = true
    · exact Or.inl hz
    · right
      split_ifs with h0
      · rcases h0 with h0 | h0
        · omega
        · exact absurd h0 hz
      · push_neg at h0
        omega
  · refine ⟨c.months.get ⟨k, hk⟩, ?_, ?_⟩
    · rw [hkk]
      exact hgetk
    · omega

theorem date_to_timestamp_of_valid (c : Calendar) (y m d : Int)
    (h : verify_date c (y, m, d) = some true) :
    date_to_timestamp c (y, m, d) =
      Except.ok ((y - (if 0 ≤ y ∨ c.hasYearZero = true then 1 else 0)) * numDaysOfYear c
        + d - 1 + sumTake c.months (m - 1).toNat + c.dayZero) := by
  unfold date_to_timestamp
  rw [h]

theorem roundtrip_t2d (c : Calendar) (hv : validConfig c) (t : Int) :
    date_to_timestamp c (timestamp_to_date c t) = Except.ok t := by
  obtain ⟨hne, hpos⟩ := hv
  have hD : 0 < numDaysOfYear c := sumDays_pos _ hne hpos
  obtain ⟨k, hk, heq, hlt, hle⟩ := timestamp_to_date_eq c hne hpos t
  have hvd := timestamp_to_date_valid c ⟨hne, hpos⟩ t
  rw [heq] at hvd
  rw [heq, date_to_timestamp_of_valid _ _ _ _ hvd]
  congr 1
  have hy := yearAdjust_there ((t - c.dayZero).fdiv (numDaysOfYear c)) c.hasYearZero
  rw [hy]
  have hkk : ((1 : Int) + (k : Int) - 1).toNat = k := by omega
  rw [hkk]
  have hqm := Int.fdiv_add_fmod (t - c.dayZero) (numDaysOfYear c)
  have hcomm : (t - c.dayZero).fdiv (numDaysOfYear c) * numDaysOfYear c =
      numDaysOfYear c * (t - c.dayZero).fdiv (numDaysOfYear c) := mul_comm _ _
  linarith

theorem roundtrip_d2t (c : Calendar) (hv : validConfig c) (y m d : Int)
    (h : verify_date c (y, m, d) = some true) :
    ∃ t, date_to_timestamp c (y, m, d) = Except.ok t ∧
      timestamp_to_date c t = (y, m, d) := by
  obtain ⟨hne, hpos⟩ := hv
  have hD : 0 < numDaysOfYear c := sumDays_pos _ hne hpos
  obtain ⟨hy, hm1, hm2, hd1, mo, hmo, hd2⟩ := (verify_date_true_iff c y m d).mp h
  have hklen : (m - 1).toNat < c.months.length := by omega
  have hget : c.months.get ⟨(m - 1).toNat, hklen⟩ = mo := by
    have hx := List.get?_eq_get hklen
    rw [hmo] at hx
    exact (Option.some.inj hx).symm
  refine ⟨_, date_to_timestamp_of_valid c y m d h, ?_⟩
  have hP0 : 0 ≤ sumTake c.months (m - 1).toNat + d - 1 := by
    have := sumTake_nonneg c.months hpos (m - 1).toNat
    omega
  have hPD : sumTake c.months (m - 1).toNat + d - 1 < numDaysOfYear c := by
    have hsum := sumTake_succ_get c.months (m - 1).toNat hklen
    rw [hget] at hsum
    have hle := sumTake_le_sumDays c.months hpos ((m - 1).toNat + 1)
    unfold numDaysOfYear
    omega
  have hdz : (y - (if 0 ≤ y ∨ c.hasYearZero = true then 1 else 0)) * numDaysOfYear c
      + d - 1 + sumTake c.months (m - 1).toNat + c.dayZero - c.dayZero =
      (y - (if 0 ≤ y ∨ c.hasYearZero = true then 1 else 0)) * numDaysOfYear c
        + (sumTake c.months (m - 1).toNat + d - 1) := by ring
  simp only [timestamp_to_date]
  rw [hdz, fdiv_decomp _ _ _ hD hP0 hPD, fmod_decomp _ _ _ hD hP0 hPD]
  have harg : sumTake c.months (m - 1).toNat + d - 1 + 1 =
      sumTake c.months (m - 1).toNat + d := by ring
  rw [harg, monthDay_build c.months hpos (m - 1).toNat hklen d 1 hd1 (by rw [hget]; exact hd2)]
  rw [Prod.mk.inj_iff]
  constructor
  · exact yearAdjust_back y c.hasYearZero hy
  · rw [Prod.mk.inj_iff]
    exact ⟨by omega, rfl⟩

/-- C1: for a valid configuration, `timestamp_to_date` inverts
`date_to_timestamp` on every date accepted by `verify_date`, and
`date_to_timestamp` inverts `timestamp_to_date` on every integer
timestamp. -/
theorem calendar_roundtrip (c : Calendar) (hv : validConfig c) :
    (∀ d : Date, verify_date c d = some true →
      ∃ t, date_to_timestamp c d = Except.ok t ∧ timestamp_to_date c t = d) ∧
    (∀ t : Int, date_to_timestamp c (timestamp_to_date c t) = Except.ok t) := by
  constructor
  · rintro ⟨y, m, d⟩ hd
    exact roundtrip_d2t c hv y m d hd
  · exact roundtrip_t2d c hv

/-- Witness for C1: the round trip evaluated on the test configuration. -/
theorem calendar_roundtrip_witness :
    validConfig testCal ∧
    date_to_timestamp testCal (timestamp_to_date testCal 181291) = Except.ok 181291 := by
  have hv : validConfig testCal := ⟨by decide, by decide⟩
  exact ⟨hv, (calendar_roundtrip testCal hv).2 181291⟩

/-- C2 counterexample: `verify_date` raises `IndexError` (it does not
return a boolean) at month 5 of a 3-month calendar with a positive day. -/
theorem verify_date_raises_on_month_overflow :
    verify_date testCal (1, 5, 1) = none := by
  decide

/-- C2 (amended): `verify_date` returns the boolean stated by the
invariant whenever the day is non-positive or the month index (shifted
by Python's negative-index wrap-around) stays inside the list, and
raises `IndexError` exactly when the day is positive and the month lies
above the list length or at or below its negation. -/
theorem verify_date_characterization (c : Calendar) (y m d : Int) :
    (verify_date c (y, m, d) = none ↔
      0 < d ∧ ((c.months.length : Int) < m ∨ m ≤ -(c.months.length : Int))) ∧
    (verify_date c (y, m, d) = some true ↔
      (c.hasYearZero = true ∨ y ≠ 0) ∧ 1 ≤ m ∧ m ≤ c.months.length ∧ 1 ≤ d ∧
      ∃ mo, c.months.get? (m - 1).toNat = some mo ∧ d ≤ mo.days) := by
  refine ⟨?_, verify_date_true_iff c y m d⟩
  rw [verify_date]
  unfold pyGet
  by_cases hd : d ≤ 0
  · rw [if_pos hd]
    simp only [Option.map_some']
    constructor
    · intro h
      exact absurd h (by simp)
    · rintro ⟨h1, _⟩
      omega
  · rw [if_neg hd]
    by_cases hin : 0 ≤ m - 1 ∧ m - 1 < (c.months.length : Int)
    · rw [if_pos hin]
      rcases hget : c.months.get? (m - 1).toNat with _ | mo
      · exfalso
        rw [List.get?_eq_none] at hget
        omega
      · simp only [Option.map_some']
        constructor
        · intro h
          exact absurd h (by simp)
        · rintro ⟨_, h2⟩
          omega
    · rw [if_neg hin]
      by_cases hneg : -(c.months.length : Int) ≤ m - 1 ∧ m - 1 < 0
      · rw [if_pos hneg]
        rcases hget : c.months.get? (m - 1 + c.months.length).toNat with _ | mo
        · exfalso
          rw [List.get?_eq_none] at hget
          omega
        · simp only [Option.map_some']
          constructor
          · intro h
            exact absurd h (by simp)
          · rintro ⟨_, h2⟩
            omega
      · rw [if_neg hneg]
        simp only [Option.map_none']
        constructor
        · intro _
          omega
        · intro _
          trivial

/-- C3 counterexample: construction with an empty month list (and an
integer `today`) succeeds and produces an engine, instead of failing
with a configuration error. -/
theorem mkCalendar_empty_months_succeeds :
    mkCalendar [] (Sum.inl 0) "before".toList "after".toList false [] 0 =
      Except.ok ⟨[], "before".toList, "after".toList, false, [], 0, 0⟩ := rfl

/-- C3 (amended): construction performs no validation of the month list
or day counts; with an integer `today` it always succeeds storing the
configuration, and with a string `today` it succeeds exactly when the
string parses, failing with that parse error otherwise. -/
theorem mkCalendar_characterization (months : List Month) (before after : Str)
    (hyz : Bool) (holidays : List Holiday) (dayZero : Int) :
    (∀ ts : Int, mkCalendar months (Sum.inl ts) before after hyz holidays dayZero =
      Except.ok ⟨months, before, after, hyz, holidays, dayZero, ts⟩) ∧
    (∀ s : Str, mkCalendar months (Sum.inr s) before after hyz holidays dayZero =
      (str_to_timestamp ⟨months, before, after, hyz, holidays, dayZero, 0⟩ s).map
        (fun ts => ⟨months, before, after, hyz, holidays, dayZero, ts⟩)) :=
  ⟨fun _ => rfl, fun _ => rfl⟩

/-- Helper: the year component computed by `timestamp_to_date`. -/
theorem timestamp_to_date_fst (c : Calendar) (t : Int) :
    (timestamp_to_date c t).1 =
      (t - c.dayZero).fdiv (numDaysOfYear c) +
        (if 0 ≤ (t - c.dayZero).fdiv (numDaysOfYear c) ∨ c.hasYearZero = true
         then 1 else 0) := rfl

/-- C4 counterexample: with `day_zero = 90` and year-zero disabled, the
zero-based index for timestamp 0 is `-1`; the code leaves it unchanged
and reports year `-1`, while the claimed rule (add 1 when the index is
non-negative or year-zero is disabled) yields year 0. -/
theorem year_adjust_counterexample :
    timestamp_to_date testCal90 0 = (-1, 1, 1) ∧
    claimedYearAdjust ((0 - testCal90.dayZero).fdiv (numDaysOfYear testCal90))
      testCal90.hasYearZero = 0 := by
  exact ⟨by decide, by decide⟩

/-- C4 (amended): the zero-based year index is incremented by 1 exactly
when it is non-negative or year-zero is ENABLED, and left unchanged
otherwise. -/
theorem timestamp_to_date_year_rule (c : Calendar) (t : Int) :
    (timestamp_to_date c t).1 =
      (t - c.dayZero).fdiv (numDaysOfYear c) +
        (if 0 ≤ (t - c.dayZero).fdiv (numDaysOfYear c) ∨ c.hasYearZero = true
         then 1 else 0) := rfl

/-- C5: with year-zero disabled, `timestamp_to_date` never reports year
0, `date_to_timestamp` fails on every year-0 date, and
`str_to_timestamp` fails on every string whose resolved date has year 0. -/
theorem no_year_zero (c : Calendar) (h0 : c.hasYearZero = false) :
    (∀ t : Int, (timestamp_to_date c t).1 ≠ 0) ∧
    (∀ m d : Int, ∃ e, date_to_timestamp c (0, m, d) = Except.error e) ∧
    (∀ (s : Str) (y m d : Int), strToDate c s = Except.ok (y, m, d) → y = 0 →
      ∃ e, str_to_timestamp c s = Except.error e) := by
  have hpart2 : ∀ m d : Int, ∃ e, date_to_timestamp c (0, m, d) = Except.error e := by
    intro m d
    rcases hvd : verify_date c (0, m, d) with _ | b
    · exact ⟨CalError.indexError, by unfold date_to_timestamp; rw [hvd]⟩
    · rcases b with _ | _
      · exact ⟨CalError.invalidDate, by unfold date_to_timestamp; rw [hvd]⟩
      · exfalso
        rw [verify_date_true_iff] at hvd
        obtain ⟨hy, _⟩ := hvd
        rcases hy with hy | hy
        · rw [h0] at hy
          exact Bool.noConfusion hy
        · exact hy rfl
  refine ⟨?_, hpart2, ?_⟩
  · intro t
    rw [timestamp_to_date_fst]
    split_ifs with h
    · rcases h with h | h
      · omega
      · rw [h0] at h
        exact absurd h (by simp)
    · push_neg at h
      omega
  · intro s y m d hres hy0
    subst hy0
    obtain ⟨e, he⟩ := hpart2 m d
    refine ⟨e, ?_⟩
    unfold str_to_timestamp
    rw [hres]
    exact he

/-- Witness for C5 at the test configuration. -/
theorem no_year_zero_witness :
    testCal.hasYearZero = false ∧ (timestamp_to_date testCal 5).1 ≠ 0 :=
  ⟨rfl, (no_year_zero testCal rfl).1 5⟩

theorem sumTake_mono (ms : List Month) (hpos : ∀ m ∈ ms, 0 < m.days) :
    ∀ {k j : Nat}, k ≤ j → sumTake ms k ≤ sumTake ms j := by
  induction ms with
  | nil => intro k j _; simp [sumTake, sumDays]
  | cons m rest ih =>
      intro k j hkj
      cases k with
      | zero =>
          rw [sumTake_zero]
          exact sumTake_nonneg _ hpos j
      | succ k' =>
          cases j with
          | zero => omega
          | succ j' =>
              rw [sumTake_cons_succ, sumTake_cons_succ]
              have := ih (fun x hx => hpos x (List.mem_cons_of_mem _ hx))
                (by omega : k' ≤ j')
              omega

theorem yearAdjust_mono (y1 y2 : Int) (hyz : Bool)
    (hv1 : hyz = true ∨ y1 ≠ 0) (hv2 : hyz = true ∨ y2 ≠ 0) (h : y1 < y2) :
    y1 - (if 0 ≤ y1 ∨ hyz = true then 1 else 0) <
      y2 - (if 0 ≤ y2 ∨ hyz = true then 1 else 0) := by
  rcases hyz with _ | _ <;> split_ifs <;> simp_all <;> omega

theorem d2t_strictMono (c : Calendar) (hv : validConfig c)
    (y1 m1 d1 y2 m2 d2 : Int)
    (h1 : verify_date c (y1, m1, d1) = some true)
    (h2 : verify_date c (y2, m2, d2) = some true)
    (hlt : dateLexLt (y1, m1, d1) (y2, m2, d2)) (t1 t2 : Int)
    (e1 : date_to_timestamp c (y1, m1, d1) = Except.ok t1)
    (e2 : date_to_timestamp c (y2, m2, d2) = Except.ok t2) :
    t1 < t2 := by
  obtain ⟨hne, hpos⟩ := hv
  have hD : 0 < numDaysOfYear c := sumDays_pos _ hne hpos
  obtain ⟨hy1, hm11, hm12, hd11, mo1, hmo1, hd12⟩ := (verify_date_true_iff c y1 m1 d1).mp h1
  obtain ⟨hy2, hm21, hm22, hd21, mo2, hmo2, hd22⟩ := (verify_date_true_iff c y2 m2 d2).mp h2
  rw [date_to_timestamp_of_valid c y1 m1 d1 h1] at e1
  rw [date_to_timestamp_of_valid c y2 m2 d2 h2] at e2
  have ht1 := Except.ok.inj e1
  have ht2 := Except.ok.inj e2
  set k1 := (m1 - 1).toNat with hk1def
  set k2 := (m2 - 1).toNat with hk2def
  have hk1len : k1 < c.months.length := by omega
  have hk2len : k2 < c.months.length := by omega
  have hget1 : c.months.get ⟨k1, hk1len⟩ = mo1 := by
    have hx := List.get?_eq_get hk1len
    rw [hmo1] at hx
    exact (Option.some.inj hx).symm
  have hsum1 := sumTake_succ_get c.months k1 hk1len
  rw [hget1] at hsum1
  have hsumlen1 := sumTake_le_sumDays c.months hpos (k1 + 1)
  have hP1 : sumTake c.months k1 + d1 - 1 < numDaysOfYear c := by
    unfold numDaysOfYear
    omega
  have hP2 : 0 ≤ sumTake c.months k2 + d2 - 1 := by
    have := sumTake_nonneg c.months hpos k2
    omega
  have hlt' : y1 < y2 ∨ (y1 = y2 ∧ (m1 < m2 ∨ (m1 = m2 ∧ d1 < d2))) := hlt
  rcases hlt' with hyy | ⟨hyeq, hrest⟩
  · -- strictly smaller year
    have hy' := yearAdjust_mono y1 y2 c.hasYearZero hy1 hy2 hyy
    have hmul := mul_le_mul_of_nonneg_right
      (show y1 - (if 0 ≤ y1 ∨ c.hasYearZero = true then 1 else 0) + 1 ≤
        y2 - (if 0 ≤ y2 ∨ c.hasYearZero = true then 1 else 0) from by omega)
      (le_of_lt hD)
    rw [add_mul, one_mul] at hmul
    have hS1 := sumTake_nonneg c.months hpos k1
    linarith
  · -- same year
    have hyeq' : y1 - (if 0 ≤ y1 ∨ c.hasYearZero = true then 1 else 0) =
        y2 - (if 0 ≤ y2 ∨ c.hasYearZero = true then 1 else 0) := by
      rw [hyeq]
    rcases hrest with hmm | ⟨hmeq, hdd⟩
    · -- strictly smaller month
      have hk12 : k1 + 1 ≤ k2 := by omega
      have hmono := sumTake_mono c.months hpos hk12
      rw [hyeq'] at ht1
      omega
    · -- same month, smaller day
      have hkeq : k1 = k2 := by omega
      rw [hyeq'] at ht1
      rw [hkeq] at ht1
      omega

theorem dateLex_total (a b : Date) : dateLexLe a b ∨ dateLexLt b a := by
  rcases a with ⟨y1, m1, d1⟩
  rcases b with ⟨y2, m2, d2⟩
  unfold dateLexLe dateLexLt
  simp only []
  omega

/-- C6: for a valid configuration, `timestamp_to_date` is monotone from
the timestamp order to the lexicographic order on (year, month, day). -/
theorem timestamp_to_date_monotone (c : Calendar) (hv : validConfig c)
    (t1 t2 : Int) (h : t1 < t2) :
    dateLexLe (timestamp_to_date c t1) (timestamp_to_date c t2) := by
  rcases dateLex_total (timestamp_to_date c t1) (timestamp_to_date c t2) with hle | hgt
  · exact hle
  · exfalso
    have hv1 := timestamp_to_date_valid c hv t1
    have hv2 := timestamp_to_date_valid c hv t2
    have e1 := roundtrip_t2d c hv t1
    have e2 := roundtrip_t2d c hv t2
    rcases hd1 : timestamp_to_date c t1 with ⟨y1, my1, dy1⟩
    rcases hd2 : timestamp_to_date c t2 with ⟨y2, my2, dy2⟩
    rw [hd1] at hv1 e1
    rw [hd2] at hv2 e2
    rw [hd1, hd2] at hgt
    have := d2t_strictMono c hv y2 my2 dy2 y1 my1 dy1 hv2 hv1 hgt t2 t1 e2 e1
    omega

/-- Witness for C6 at the test configuration. -/
theorem timestamp_to_date_monotone_witness :
    dateLexLe (timestamp_to_date testCal 3) (timestamp_to_date testCal 7) :=
  timestamp_to_date_monotone testCal ⟨by decide, by decide⟩ 3 7 (by decide)

/-- C9: `day_of_year`, `remainder_of_month` and `remainder_of_year` read
`.day`/`.month` attributes on plain `Date` tuples, so they fail on every
date of the test calendar — including (1, 1, 1), the date of timestamp
0, where the repository's tests expect `day_of_year(0) == 1`,
`rest_of_month(0) == 29` and `rest_of_year(0) == 89`. -/
theorem day_of_year_family_fails :
    (∀ d : Date, day_of_year testCal d = none) ∧
    day_of_year testCal (1, 1, 1) = none ∧
    remainder_of_month testCal (1, 1, 1) = none ∧
    remainder_of_year testCal (1, 1, 1) = none := by
  refine ⟨?_, by decide, by decide, by decide⟩
  intro d
  unfold day_of_year
  rcases hh : verify_date testCal d with _ | b
  · rfl
  · rcases b with _ | _
    · rfl
    · rfl

/-- C10: `days_between_dates` returns 0 on equal valid dates and fails
(tuple attribute access raises `AttributeError`) on every pair of
distinct valid dates. -/
theorem days_between_dates_spec (c : Calendar) (d1 d2 : Date)
    (h1 : verify_date c d1 = some true) (h2 : verify_date c d2 = some true) :
    days_between_dates c d1 d2 = if d1 = d2 then some 0 else none := by
  unfold days_between_dates
  rw [h1, h2]
  unfold underDaysBetweenDates
  by_cases he : d1 = d2
  · rw [if_pos he, if_pos he]
  · rw [if_neg he, if_neg he]
    rfl

theorem digit_spec : ∀ n, n < 10 →
    isDigitChar (digitChar n) = true ∧ digitVal (digitChar n) = n := by
  decide

theorem digit_not_ws (c : Char) (h : isDigitChar c = true) :
    isWhitespaceChar c = false := by
  unfold isDigitChar at h
  unfold isWhitespaceChar
  simp only [Bool.and_eq_true, decide_eq_true_eq] at h
  simp only [Bool.or_eq_false_iff, decide_eq_false_iff_not]
  refine ⟨⟨⟨⟨⟨?_, ?_⟩, ?_⟩, ?_⟩, ?_⟩, ?_⟩ <;> rintro rfl <;> revert h <;> decide

theorem digit_ne_space (c : Char) (h : isDigitChar c = true) : c ≠ ' ' := by
  rintro rfl
  revert h
  decide

theorem not_ws_ne (c : Char) (h : isWhitespaceChar c = false) :
    c ≠ ' ' ∧ c ≠ '\n' := by
  unfold isWhitespaceChar at h
  simp only [Bool.or_eq_false_iff, decide_eq_false_iff_not] at h
  exact ⟨h.1.1.1.1.1, h.1.1.1.2⟩

theorem stripNl_append_era (pre era : Str) (hne : era ≠ [])
    (hws : ∀ a ∈ era, isWhitespaceChar a = false) :
    stripNl (pre ++ era) = pre ++ era := by
  unfold stripNl
  rw [List.getLast?_append_of_ne_nil pre hne, if_neg]
  intro hc
  exact (not_ws_ne '\n' (hws '\n' (List.mem_of_getLast?_eq_some hc))).2 rfl

theorem span_append (p : Char → Bool) (xs : Str) (y : Char) (ys : Str)
    (hall : ∀ a ∈ xs, p a = true) (hy : p y = false) :
    (xs ++ y :: ys).takeWhile p = xs ∧ (xs ++ y :: ys).dropWhile p = y :: ys := by
  induction xs with
  | nil =>
      simp [List.takeWhile_cons, List.dropWhile_cons, hy]
  | cons a as ih =>
      have hpa : p a = true := hall a (List.mem_cons_self _ _)
      have ih' := ih (fun b hb => hall b (List.mem_cons_of_mem _ hb))
      simp [List.takeWhile_cons, List.dropWhile_cons, hpa, ih'.1, ih'.2]

theorem takeWhile_eq_nil_of_head (p : Char → Bool) (y : Char) (ys : Str)
    (hy : p y = false) : (y :: ys).takeWhile p = [] := by
  simp only [List.takeWhile_cons, hy]
  rfl

theorem natStrGo_digits : ∀ fuel n, n < fuel →
    natStrGo fuel n ≠ [] ∧ ∀ a ∈ natStrGo fuel n, isDigitChar a = true := by
  intro fuel
  induction fuel with
  | zero => intro n h; omega
  | succ f ih =>
      intro n h
      rw [natStrGo]
      by_cases h10 : n < 10
      · rw [if_pos h10]
        refine ⟨by simp, ?_⟩
        intro a ha
        rw [List.mem_singleton] at ha
        subst ha
        exact (digit_spec n h10).1
      · rw [if_neg h10]
        have hdiv : n / 10 < f := by
          have := Nat.div_lt_self (show 0 < n by omega) (show 1 < 10 by omega)
          omega
        obtain ⟨hne, hall⟩ := ih (n / 10) hdiv
        refine ⟨by simp, ?_⟩
        intro a ha
        rw [List.mem_append] at ha
        rcases ha with ha | ha
        · exact hall a ha
        · rw [List.mem_singleton] at ha
          subst ha
          exact (digit_spec (n % 10) (Nat.mod_lt _ (by omega))).1

theorem natStr_ne_nil (n : Nat) : natStr n ≠ [] :=
  (natStrGo_digits (n + 1) n (by omega)).1

theorem natStr_digits (n : Nat) : ∀ a ∈ natStr n, isDigitChar a = true :=
  (natStrGo_digits (n + 1) n (by omega)).2

theorem natStrGo_congr : ∀ f1 f2 n, n < f1 → n < f2 →
    natStrGo f1 n = natStrGo f2 n := by
  intro f1
  induction f1 with
  | zero => intro f2 n h; omega
  | succ f ih =>
      intro f2 n h1 h2
      cases f2 with
      | zero => omega
      | succ f2' =>
          rw [natStrGo, natStrGo]
          by_cases h10 : n < 10
          · rw [if_pos h10, if_pos h10]
          · rw [if_neg h10, if_neg h10]
            have hdiv1 : n / 10 < f := by
              have := Nat.div_lt_self (show 0 < n by omega) (show 1 < 10 by omega)
              omega
            have hdiv2 : n / 10 < f2' := by
              have := Nat.div_lt_self (show 0 < n by omega) (show 1 < 10 by omega)
              omega
            rw [ih f2' (n / 10) hdiv1 hdiv2]

theorem digitsFold_natStrGo : ∀ fuel n a, n < fuel →
    (natStrGo fuel n).foldl (fun acc c => 10 * acc + digitVal c) a =
      a * 10 ^ (natStrGo fuel n).length + n := by
  intro fuel
  induction fuel with
  | zero => intro n a h; omega
  | succ f ih =>
      intro n a h
      rw [natStrGo]
      by_cases h10 : n < 10
      · rw [if_pos h10]
        simp only [List.foldl_cons, List.foldl_nil, List.length_singleton, pow_one]
        rw [(digit_spec n h10).2]
        ring
      · rw [if_neg h10]
        have hdiv : n / 10 < f := by
          have := Nat.div_lt_self (show 0 < n by omega) (show 1 < 10 by omega)
          omega
        rw [List.foldl_append, ih (n / 10) a hdiv]
        simp only [List.foldl_cons, List.foldl_nil, List.length_append,
          List.length_singleton]
        rw [(digit_spec (n % 10) (Nat.mod_lt _ (by omega))).2]
        have hmul : 10 * (a * 10 ^ (natStrGo f (n / 10)).length + n / 10) + n % 10 =
            a * (10 ^ (natStrGo f (n / 10)).length * 10) + (10 * (n / 10) + n % 10) := by
          ring
        rw [hmul, pow_succ]
        have := Nat.div_add_mod n 10
        omega

theorem digitsToNat_natStr (n : Nat) : digitsToNat (natStr n) = n := by
  unfold digitsToNat natStr
  rw [digitsFold_natStrGo (n + 1) n 0 (by omega)]
  simp

theorem wordTail_era (era : Str) (hne : era ≠ [])
    (hall : ∀ a ∈ era, isWordChar a = true ∧ isDigitChar a = false ∧
      isWhitespaceChar a = false) :
    wordTail (' ' :: era) = some (some era) := by
  obtain ⟨e, es, rfl⟩ : ∃ e es, era = e :: es := by
    cases era with
    | nil => exact absurd rfl hne
    | cons e es => exact ⟨e, es, rfl⟩
  have he := hall e (List.mem_cons_self _ _)
  have hdrop : ((' ' :: e :: es).dropWhile (fun c => c = ' ')) = e :: es := by
    rw [List.dropWhile_cons, if_pos (by decide), List.dropWhile_cons,
      if_neg (by simpa using (not_ws_ne e he.2.2).1)]
  have hword : (e :: es).all isWordChar = true := by
    rw [List.all_eq_true]
    intro a ha
    exact (hall a ha).1
  simp only [wordTail, hdrop]
  rw [if_neg (by simp), if_pos hword]

theorem specTail_digits (Y era : Str) (hYne : Y ≠ [])
    (hYd : ∀ a ∈ Y, isDigitChar a = true) (hne : era ≠ [])
    (hall : ∀ a ∈ era, isWordChar a = true ∧ isDigitChar a = false ∧
      isWhitespaceChar a = false) :
    specTail (Y ++ ' ' :: era) = some (Y, some era) := by
  obtain ⟨ht, hd⟩ := span_append isDigitChar Y ' ' era hYd (by decide)
  simp only [specTail, ht, hd]
  rw [if_neg hYne, wordTail_era era hne hall]
  rfl

theorem specTail_nondigit_none (w : Str) (h : w.takeWhile isDigitChar = []) :
    specTail w = none := by
  simp [specTail, h]

theorem aux_nospace_none (s : Str)
    (h : ∀ a ∈ s, a ≠ ' ' ∧ a ≠ '\n') : matchSpecialAux s = none := by
  induction s with
  | nil => rfl
  | cons a as ih =>
      have ha := h a (List.mem_cons_self _ _)
      have ih' := ih (fun b hb => h b (List.mem_cons_of_mem _ hb))
      simp only [matchSpecialAux, List.append_eq, ih']
      rw [if_neg ha.1]

theorem aux_digits_space_era_none (Y era : Str)
    (hYd : ∀ a ∈ Y, isDigitChar a = true) (hne : era ≠ [])
    (hall : ∀ a ∈ era, isWordChar a = true ∧ isDigitChar a = false ∧
      isWhitespaceChar a = false) :
    matchSpecialAux (Y ++ ' ' :: era) = none := by
  induction Y with
  | nil =>
      have hera : ∀ a ∈ era, a ≠ ' ' ∧ a ≠ '\n' :=
        fun a ha => not_ws_ne a (hall a ha).2.2
      have htw : era.takeWhile isDigitChar = [] := by
        cases era with
        | nil => rfl
        | cons e es =>
            exact takeWhile_eq_nil_of_head _ e es (hall e (List.mem_cons_self _ _)).2.1
      simp only [List.nil_append, matchSpecialAux, aux_nospace_none era hera,
        if_true, specTail_nondigit_none era htw]
      rfl
  | cons a as ih =>
      have ha := hYd a (List.mem_cons_self _ _)
      have ih' := ih (fun b hb => hYd b (List.mem_cons_of_mem _ hb))
      simp only [List.cons_append, List.append_eq, matchSpecialAux, ih']
      rw [if_neg (digit_ne_space a ha)]

theorem matchSpecial_render (name Y era : Str)
    (hname : ∀ a ∈ name, isDigitChar a = false ∧ a ≠ '\n')
    (hYne : Y ≠ []) (hYd : ∀ a ∈ Y, isDigitChar a = true) (hne : era ≠ [])
    (hall : ∀ a ∈ era, isWordChar a = true ∧ isDigitChar a = false ∧
      isWhitespaceChar a = false) :
    matchSpecialAux (name ++ ' ' :: (Y ++ ' ' :: era)) = some (name, Y, some era) := by
  induction name with
  | nil =>
      simp only [List.nil_append, matchSpecialAux,
        aux_digits_space_era_none Y era hYd hne hall, if_true,
        specTail_digits Y era hYne hYd hne hall]
      rfl
  | cons a as ih =>
      have ha := hname a (List.mem_cons_self _ _)
      have ih' := ih (fun b hb => hname b (List.mem_cons_of_mem _ hb))
      simp only [List.cons_append, List.append_eq, matchSpecialAux, ih']
      rw [if_neg ha.2]

theorem matchSlash_none_of_no_digits (s : Str)
    (h : s.takeWhile isDigitChar = []) : matchSlashCore s = none := by
  simp [matchSlashCore, h]

theorem matchWorded_none_of_no_digits (s : Str)
    (h : s.takeWhile isDigitChar = []) : matchWordedCore s = none := by
  simp [matchWordedCore, h]

theorem matchSlash_none_after_digits (dds : Str) (ch : Char) (rest : Str)
    (hall : ∀ a ∈ dds, isDigitChar a = true) (hch : isDigitChar ch = false)
    (hne : ch ≠ '/') : matchSlashCore (dds ++ ch :: rest) = none := by
  obtain ⟨ht, hd⟩ := span_append isDigitChar dds ch rest hall hch
  by_cases hdd : dds = []
  · apply matchSlash_none_of_no_digits
    rw [ht, hdd]
  · simp only [matchSlashCore, ht, hd]
    rw [if_neg hdd, if_neg hne]

theorem goodEra_spec (tok : Str) (h : goodEra tok = true) :
    tok ≠ [] ∧ ∀ a ∈ tok, isWordChar a = true ∧ isDigitChar a = false ∧
      isWhitespaceChar a = false := by
  unfold goodEra at h
  simp only [Bool.and_eq_true, List.all_eq_true, Bool.not_eq_true'] at h
  obtain ⟨hne, hall⟩ := h
  refine ⟨by simpa using hne, ?_⟩
  intro a ha
  have := hall a ha
  simp only [Bool.and_eq_true, Bool.not_eq_true'] at this
  exact ⟨this.1.1, this.1.2, this.2⟩

theorem goodMonthName_spec (n : Str) (h : goodMonthName n = true) :
    2 ≤ n.length ∧ (∀ a ∈ n, isDigitChar a = false) ∧
    (∃ h0 t, n = h0 :: t ∧ h0 ≠ ' ') ∧
    (∀ lc, n.getLast? = some lc → isWhitespaceChar lc = false) := by
  unfold goodMonthName at h
  simp only [Bool.and_eq_true, decide_eq_true_eq, List.all_eq_true,
    Bool.not_eq_true'] at h
  obtain ⟨⟨⟨hlen, hall⟩, hhead⟩, hlast⟩ := h
  refine ⟨hlen, fun a ha => (hall a ha).2, ?_, ?_⟩
  · cases n with
    | nil => simp at hlen
    | cons h0 t =>
        refine ⟨h0, t, rfl, ?_⟩
        simpa using hhead
  · intro lc hlc
    rw [hlc] at hlast
    simpa using hlast

theorem goodHolidayName_spec (n : Str) (h : goodHolidayName n = true) :
    n ≠ [] ∧ ∀ a ∈ n, isDigitChar a = false ∧ a ≠ '\n' := by
  unfold goodHolidayName at h
  simp only [Bool.and_eq_true, Bool.not_eq_true', List.all_eq_true,
    decide_eq_true_eq] at h
  refine ⟨?_, fun a ha => ⟨(h.2 a ha).1.2, (h.2 a ha).2⟩⟩
  intro hnil
  rw [hnil] at h
  simp at h

theorem tail3_space_digits (Y era : Str) (hYne : Y ≠ [])
    (hYd : ∀ a ∈ Y, isDigitChar a = true) (hne : era ≠ [])
    (hall : ∀ a ∈ era, isWordChar a = true ∧ isDigitChar a = false ∧
      isWhitespaceChar a = false) :
    tail3 (' ' :: (Y ++ ' ' :: era)) = some (Y, some era) := by
  obtain ⟨yh, yt, rfl⟩ : ∃ yh yt, Y = yh :: yt := by
    cases Y with
    | nil => exact absurd rfl hYne
    | cons yh yt => exact ⟨yh, yt, rfl⟩
  have hyh := hYd yh (List.mem_cons_self _ _)
  have hspan := span_append (fun c => c = ' ') [' '] yh (yt ++ ' ' :: era)
    (by intro a ha; rw [List.mem_singleton] at ha; subst ha; decide)
    (decide_eq_false (digit_ne_space yh hyh))
  simp only [List.singleton_append, List.cons_append, List.nil_append] at hspan
  simp only [tail3, List.cons_append, hspan.1]
  rw [if_neg (by simp), hspan.2]
  have := specTail_digits (yh :: yt) era hYne hYd hne hall
  simp only [List.cons_append] at this
  exact this

theorem tail3_digits_era_none (yt era : Str)
    (hYd : ∀ a ∈ yt, isDigitChar a = true) (hne : era ≠ [])
    (hall : ∀ a ∈ era, isWordChar a = true ∧ isDigitChar a = false ∧
      isWhitespaceChar a = false) :
    tail3 (yt ++ ' ' :: era) = none := by
  cases yt with
  | nil =>
      obtain ⟨e, es, rfl⟩ : ∃ e es, era = e :: es := by
        cases era with
        | nil => exact absurd rfl hne
        | cons e es => exact ⟨e, es, rfl⟩
      have he := hall e (List.mem_cons_self _ _)
      have hspan := span_append (fun c => c = ' ') [' '] e es
        (by intro a ha; rw [List.mem_singleton] at ha; subst ha; decide)
        (decide_eq_false (not_ws_ne e he.2.2).1)
      simp only [List.singleton_append, List.cons_append, List.nil_append] at hspan
      simp only [tail3, List.nil_append, hspan.1]
      rw [if_neg (by simp), hspan.2]
      exact specTail_nondigit_none _ (takeWhile_eq_nil_of_head _ e es he.2.1)
  | cons a at' =>
      have ha := hYd a (List.mem_cons_self _ _)
      simp only [tail3, List.cons_append]
      rw [takeWhile_eq_nil_of_head _ a _ (decide_eq_false (digit_ne_space a ha))]
      simp

theorem tryK_step_skip (u : Str) (kd : Nat) (c : Char) (rest : Str)
    (hdrop : u.drop (kd + 1) = c :: rest) (hws : isWhitespaceChar c = true) :
    tryK u (kd + 1) = tryK u kd := by
  rw [tryK, hdrop]
  show (if isWhitespaceChar c = true then tryK u kd
    else match tail3 rest with
      | some (y, e) => some (u.take (kd + 2), y, e)
      | none => tryK u kd) = tryK u kd
  rw [if_pos hws]

theorem tryK_step_fail (u : Str) (kd : Nat) (c : Char) (rest : Str)
    (hdrop : u.drop (kd + 1) = c :: rest) (hws : isWhitespaceChar c = false)
    (htail : tail3 rest = none) : tryK u (kd + 1) = tryK u kd := by
  rw [tryK, hdrop]
  show (if isWhitespaceChar c = true then tryK u kd
    else match tail3 rest with
      | some (y, e) => some (u.take (kd + 2), y, e)
      | none => tryK u kd) = tryK u kd
  rw [if_neg (by simp [hws]), htail]

theorem tryK_step_hit (u : Str) (kd : Nat) (c : Char) (rest y : Str)
    (e : Option Str) (hdrop : u.drop (kd + 1) = c :: rest)
    (hws : isWhitespaceChar c = false) (htail : tail3 rest = some (y, e)) :
    tryK u (kd + 1) = some (u.take (kd + 2), y, e) := by
  rw [tryK, hdrop]
  show (if isWhitespaceChar c = true then tryK u kd
    else match tail3 rest with
      | some (y2, e2) => some (u.take (kd + 2), y2, e2)
      | none => tryK u kd) = some (u.take (kd + 2), y, e)
  rw [if_neg (by simp [hws]), htail]

theorem tryK_render (name Y era : Str) (hlen : 2 ≤ name.length)
    (hnd : ∀ a ∈ name, isDigitChar a = false)
    (hlast : ∀ lc, name.getLast? = some lc → isWhitespaceChar lc = false)
    (hYne : Y ≠ []) (hYd : ∀ a ∈ Y, isDigitChar a = true) (hne : era ≠ [])
    (hall : ∀ a ∈ era, isWordChar a = true ∧ isDigitChar a = false ∧
      isWhitespaceChar a = false) :
    tryK (name ++ ' ' :: (Y ++ ' ' :: era)) (name.length + 1) =
      some (name, Y, some era) := by
  obtain ⟨q, lc, hqlc⟩ : ∃ q lc, name = q ++ [lc] := by
    rcases List.eq_nil_or_concat name with h | ⟨L, b, h⟩
    · subst h
      simp at hlen
    · exact ⟨L, b, by rw [h, List.concat_eq_append]⟩
  have hlc : isWhitespaceChar lc = false :=
    hlast lc (by rw [hqlc]; exact List.getLast?_concat _)
  obtain ⟨yh, yt, rfl⟩ : ∃ yh yt, Y = yh :: yt := by
    cases Y with
    | nil => exact absurd rfl hYne
    | cons yh yt => exact ⟨yh, yt, rfl⟩
  have hyh := hYd yh (List.mem_cons_self _ _)
  have hdrop1 : (name ++ ' ' :: ((yh :: yt) ++ ' ' :: era)).drop (name.length + 1) =
      yh :: (yt ++ ' ' :: era) := by
    have h1 : name ++ ' ' :: ((yh :: yt) ++ ' ' :: era) =
        (name ++ [' ']) ++ (yh :: (yt ++ ' ' :: era)) := by simp
    rw [h1, List.drop_left' (by simp)]
  have s1 := tryK_step_fail _ name.length yh (yt ++ ' ' :: era) hdrop1
    (digit_not_ws yh hyh)
    (tail3_digits_era_none yt era (fun a ha => hYd a (List.mem_cons_of_mem _ ha))
      hne hall)
  have hql : name.length = q.length + 1 := by rw [hqlc]; simp
  have hdrop2 : (name ++ ' ' :: ((yh :: yt) ++ ' ' :: era)).drop (q.length + 1) =
      ' ' :: ((yh :: yt) ++ ' ' :: era) := by
    rw [hqlc, List.drop_left' (by simp : (q ++ [lc]).length = q.length + 1)]
  have s2 := tryK_step_skip _ q.length ' ' ((yh :: yt) ++ ' ' :: era) hdrop2 (by decide)
  obtain ⟨qt, hq⟩ : ∃ qt, q.length = qt + 1 := ⟨q.length - 1, by omega⟩
  have hdrop3 : (name ++ ' ' :: ((yh :: yt) ++ ' ' :: era)).drop (qt + 1) =
      lc :: ' ' :: ((yh :: yt) ++ ' ' :: era) := by
    rw [hqlc]
    have h1 : (q ++ [lc]) ++ ' ' :: ((yh :: yt) ++ ' ' :: era) =
        q ++ (lc :: ' ' :: ((yh :: yt) ++ ' ' :: era)) := by simp
    rw [h1, List.drop_left' (by omega)]
  have s3 := tryK_step_hit _ qt lc (' ' :: ((yh :: yt) ++ ' ' :: era)) (yh :: yt)
    (some era) hdrop3 hlc (tail3_space_digits (yh :: yt) era hYne hYd hne hall)
  have htake : (name ++ ' ' :: ((yh :: yt) ++ ' ' :: era)).take (qt + 2) = name := by
    rw [List.take_left' (by omega)]
  rw [s1, hql, s2, hq, s3, htake]

theorem tryJ_one_hit (r : Str) (g : Str × Str × Option Str)
    (h : groupRest (r.drop 1) = some g) : tryJ r 1 = some g := by
  have h1 : tryJ r 1 = match groupRest (r.drop 1) with
    | some x => some x
    | none => tryJ r 0 := rfl
  rw [h1, h]

theorem afterOf_render (name Y era : Str) (hname : goodMonthName name = true)
    (hYne : Y ≠ []) (hYd : ∀ a ∈ Y, isDigitChar a = true) (hne : era ≠ [])
    (hall : ∀ a ∈ era, isWordChar a = true ∧ isDigitChar a = false ∧
      isWhitespaceChar a = false) :
    afterOf (' ' :: (name ++ ' ' :: (Y ++ ' ' :: era))) = some (name, Y, some era) := by
  obtain ⟨hlen, hnd, ⟨h0, t0, hn0, hh0⟩, hlast⟩ := goodMonthName_spec name hname
  obtain ⟨yh, yt, rfl⟩ : ∃ yh yt, Y = yh :: yt := by
    cases Y with
    | nil => exact absurd rfl hYne
    | cons yh yt => exact ⟨yh, yt, rfl⟩
  have hyh := hYd yh (List.mem_cons_self _ _)
  have hgr : groupRest (name ++ ' ' :: ((yh :: yt) ++ ' ' :: era)) =
      some (name, yh :: yt, some era) := by
    unfold groupRest
    have hshape2 : name ++ ' ' :: ((yh :: yt) ++ ' ' :: era) =
        (name ++ [' ']) ++ (yh :: (yt ++ ' ' :: era)) := by simp
    have hsp2 := span_append (fun c => !isDigitChar c) (name ++ [' ']) yh
      (yt ++ ' ' :: era)
      (by
        intro a ha
        rw [List.mem_append] at ha
        rcases ha with ha | ha
        · simp [hnd a ha]
        · rw [List.mem_singleton] at ha
          subst ha
          decide)
      (by simp [hyh])
    have htw2 : (name ++ ' ' :: ((yh :: yt) ++ ' ' :: era)).takeWhile
        (fun c => !isDigitChar c) = name ++ [' '] := by
      rw [hshape2]
      exact hsp2.1
    have hlen2 : (name ++ [' ']).length = name.length + 1 := by simp
    rw [htw2, hlen2]
    exact tryK_render name (yh :: yt) era hlen hnd hlast hYne hYd hne hall
  unfold afterOf
  have hsp := span_append (fun c => c = ' ') [' '] h0
    (t0 ++ ' ' :: ((yh :: yt) ++ ' ' :: era))
    (by intro a ha; rw [List.mem_singleton] at ha; subst ha; decide)
    (decide_eq_false hh0)
  simp only [List.singleton_append, List.cons_append, List.nil_append] at hsp
  have htw1 : (' ' :: (name ++ ' ' :: ((yh :: yt) ++ ' ' :: era))).takeWhile
      (fun c => c = ' ') = [' '] := by
    simp only [hn0, List.cons_append]
    exact hsp.1
  rw [htw1, List.length_singleton]
  refine tryJ_one_hit _ _ ?_
  have hd1 : (' ' :: (name ++ ' ' :: ((yh :: yt) ++ ' ' :: era))).drop 1 =
      name ++ ' ' :: ((yh :: yt) ++ ' ' :: era) := rfl
  rw [hd1]
  exact hgr

theorem afterSuffix_render (u : Str) :
    afterSuffix (' ' :: 'o' :: 'f' :: ' ' :: u) = afterOf (' ' :: u) := by
  have hsp := span_append (fun c => c = ' ') [' '] 'o' ('f' :: ' ' :: u)
    (by intro a ha; rw [List.mem_singleton] at ha; subst ha; decide)
    (by decide)
  simp only [List.singleton_append, List.cons_append, List.nil_append] at hsp
  unfold afterSuffix
  rw [hsp.1, if_neg (by simp), hsp.2]
  show (if 'o' = 'o' ∧ 'f' = 'f' then afterOf (' ' :: u) else none) = afterOf (' ' :: u)
  rw [if_pos ⟨rfl, rfl⟩]

theorem matchWorded_render (dds suf name Y era : Str)
    (hdne : dds ≠ []) (hdd : ∀ a ∈ dds, isDigitChar a = true)
    (hsuf : suf = ['s','t'] ∨ suf = ['n','d'] ∨ suf = ['r','d'] ∨ suf = ['t','h'])
    (hname : goodMonthName name = true)
    (hYne : Y ≠ []) (hYd : ∀ a ∈ Y, isDigitChar a = true) (hne : era ≠ [])
    (hall : ∀ a ∈ era, isWordChar a = true ∧ isDigitChar a = false ∧
      isWhitespaceChar a = false) :
    matchWordedCore (dds ++ (suf ++ (' ' :: 'o' :: 'f' :: ' ' ::
      (name ++ ' ' :: (Y ++ ' ' :: era))))) = some (dds, name, Y, some era) := by
  obtain ⟨c1, c2, rfl, hc1d, hc1s, hbool⟩ :
      ∃ c1 c2, suf = [c1, c2] ∧ isDigitChar c1 = false ∧ c1 ≠ '/' ∧
        ([c1, c2] = ['s','t'] || [c1, c2] = ['n','d'] || [c1, c2] = ['r','d'] ||
          [c1, c2] = ['t','h']) = true := by
    rcases hsuf with rfl | rfl | rfl | rfl <;>
      exact ⟨_, _, rfl, by decide, by decide, by decide⟩
  obtain ⟨hlen, hnd, ⟨h0, t0, hn0, hh0⟩, hlast⟩ := goodMonthName_spec name hname
  have hshape : dds ++ ([c1, c2] ++ (' ' :: 'o' :: 'f' :: ' ' ::
      (name ++ ' ' :: (Y ++ ' ' :: era)))) =
      dds ++ c1 :: c2 :: ' ' :: 'o' :: 'f' :: ' ' ::
        (name ++ ' ' :: (Y ++ ' ' :: era)) := by simp
  rw [hshape]
  obtain ⟨htw, hdw⟩ := span_append isDigitChar dds c1
    (c2 :: ' ' :: 'o' :: 'f' :: ' ' :: (name ++ ' ' :: (Y ++ ' ' :: era))) hdd hc1d
  simp only [matchWordedCore, htw, hdw]
  rw [if_neg hdne]
  show (if ([c1, c2] = ['s','t'] || [c1, c2] = ['n','d'] || [c1, c2] = ['r','d'] ||
      [c1, c2] = ['t','h']) = true then
      (afterSuffix (' ' :: 'o' :: 'f' :: ' ' ::
        (name ++ ' ' :: (Y ++ ' ' :: era)))).map (fun g => (dds, g))
    else none) = some (dds, name, Y, some era)
  rw [if_pos hbool, afterSuffix_render _,
    afterOf_render name Y era hname hYne hYd hne hall]
  rfl

theorem searchMonthAux_get (ms : List Month) :
    (ms.map Month.name).Nodup → ∀ (k : Nat) (hk : k < ms.length) (n : Int),
      searchMonthAux n ms (ms.get ⟨k, hk⟩).name = some (n + (k : Int), ms.get ⟨k, hk⟩) := by
  induction ms with
  | nil => intro _ k hk; simp at hk
  | cons m rest ih =>
      intro hnd k hk n
      rw [List.map_cons, List.nodup_cons] at hnd
      cases k with
      | zero =>
          show searchMonthAux n (m :: rest) m.name = some (n + ((0 : Nat) : Int), m)
          rw [searchMonthAux, if_pos rfl]
          simp
      | succ k' =>
          have hk' : k' < rest.length := by simpa using hk
          have hmem : (rest.get ⟨k', hk'⟩) ∈ rest := List.get_mem _ _ _
          have hne : m.name ≠ (rest.get ⟨k', hk'⟩).name := by
            intro he
            exact hnd.1 (he ▸ List.mem_map_of_mem Month.name hmem)
          have hget : ((m :: rest).get ⟨k' + 1, hk⟩) = rest.get ⟨k', hk'⟩ := rfl
          rw [hget]
          rw [searchMonthAux, if_neg hne, ih hnd.2 k' hk' (n + 1)]
          have hc : n + 1 + (k' : Int) = n + ((k' + 1 : Nat) : Int) := by
            push_cast
            ring
          rw [hc]

theorem searchHoliday_mem (h : Holiday) : ∀ hs : List Holiday,
    (hs.map Holiday.name).Nodup → h ∈ hs → searchHoliday hs h.name = some h := by
  intro hs
  induction hs with
  | nil => intro _ hmem; simp at hmem
  | cons h0 rest ih =>
      intro hnd hmem
      rw [List.map_cons, List.nodup_cons] at hnd
      rcases List.mem_cons.mp hmem with rfl | hmem'
      · rw [searchHoliday, if_pos rfl]
      · have hne : h0.name ≠ h.name := by
          intro he
          exact hnd.1 (he ▸ List.mem_map_of_mem Holiday.name hmem')
        rw [searchHoliday, if_neg hne]
        exact ih hnd.2 hmem'

theorem tryGetHoliday_spec (hs : List Holiday) (m d : Int) (name : Str) :
    tryGetHoliday hs m d = some name →
    ∃ hol, hol ∈ hs ∧ hol.name = name ∧ hol.month = m ∧ hol.day = d := by
  induction hs with
  | nil => intro h; simp [tryGetHoliday] at h
  | cons h0 rest ih =>
      intro h
      by_cases hc : h0.month = m ∧ h0.day = d
      · simp only [tryGetHoliday] at h
        rw [if_pos hc] at h
        exact ⟨h0, List.mem_cons_self _ _, Option.some.inj h, hc.1, hc.2⟩
      · simp only [tryGetHoliday] at h
        rw [if_neg hc] at h
        obtain ⟨hol, hmem, hrest⟩ := ih h
        exact ⟨hol, List.mem_cons_of_mem _ hmem, hrest⟩

theorem pyGet_in_range (l : List Month) (i : Int) (h0 : 0 ≤ i)
    (hl : i < l.length) : pyGet l i = l.get? i.toNat := by
  unfold pyGet
  rw [if_pos ⟨h0, hl⟩]

theorem nthFromDay_pos (d : Int) (h : 0 ≤ d) :
    ∃ suf, nthFromDay d = some (natStr d.toNat ++ suf) ∧
      (suf = ['s','t'] ∨ suf = ['n','d'] ∨ suf = ['r','d'] ∨ suf = ['t','h']) := by
  unfold nthFromDay
  rw [if_neg (by omega)]
  split_ifs <;> exact ⟨_, rfl, by simp⟩

theorem timestamp_to_str_eq (c : Calendar) (t y m d : Int)
    (hdt : timestamp_to_date c t = (y, m, d)) :
    timestamp_to_str c t =
      (match tryGetHoliday c.holidays m d with
       | some name =>
           if name = [] then
             ordinalRender c m d (natStr y.natAbs)
               (if y < 0 then c.before else c.after)
           else some (name ++ ' ' :: (natStr y.natAbs ++ ' ' ::
             (if y < 0 then c.before else c.after)))
       | none => ordinalRender c m d (natStr y.natAbs)
           (if y < 0 then c.before else c.after)) := by
  unfold timestamp_to_str
  rw [hdt]

theorem strToDate_worded (c : Calendar) (s : Str) (dstr mname ystr : Str)
    (era : Option Str) (num : Int) (mo : Month)
    (h1 : matchSlash s = none) (h2 : matchWorded s = some (dstr, mname, ystr, era))
    (hsm : searchMonthAux 1 c.months mname = some (num, mo)) :
    strToDate c s = (resolveEra c (digitsToNat ystr) era).map
      (fun yy => (yy, num, (digitsToNat dstr : Int))) := by
  simp only [strToDate, h1, h2, hsm]

theorem strToDate_special (c : Calendar) (s : Str) (hname ystr : Str)
    (era : Option Str) (h : Holiday)
    (h1 : matchSlash s = none) (h2 : matchWorded s = none)
    (h3 : matchSpecial s = some (hname, ystr, era))
    (hsh : searchHoliday c.holidays hname = some h) :
    strToDate c s = (resolveEra c (digitsToNat ystr) era).map
      (fun yy => (yy, h.month, h.day)) := by
  simp only [strToDate, h1, h2, h3, hsh]

/-- Witness for C10 at the test configuration. -/
theorem days_between_dates_witness :
    days_between_dates testCal (1, 1, 1) (1, 1, 1) = some 0 ∧
    days_between_dates testCal (1, 1, 1) (2015, 2, 2) = none := by
  constructor
  · have h := days_between_dates_spec testCal (1, 1, 1) (1, 1, 1) (by decide) (by decide)
    simpa using h
  · have h := days_between_dates_spec testCal (1, 1, 1) (2015, 2, 2) (by decide) (by decide)
    simpa using h
example : str_to_timestamp testCal "3rd of foo 7 after".toList = Except.error CalError.monthNotFound := rfl
example : str_to_timestamp testCal "foo day 7 after".toList = Except.error CalError.holidayNotFound := rfl
example : str_to_timestamp testCal "1/2/3 blah".toList = Except.error CalError.unknownEra := rfl
